import Mathlib

/-!
# Verification of the lrc-video-scripter segment/text model and LRC codecs

Shallow embedding of the core of the repository: the `TextBlock` library, the
`VideoSegment` timeline with its split/merge/initialize operations, the LRC
export serializer (`exportLRC`) and the LRC import parser/reconciler
(`parseLRCFile` / `handleLrcImport`).  All definitions are translated from the
current application source file (the one with the LRC import feature and the
export that keeps unassigned segments); `id` strings minted by
`crypto.randomUUID()` are modelled by a counter of fresh natural numbers, and
JavaScript numbers by exact rationals.
-/

namespace LrcScripter

/-- `interface TextBlock { id: string; text: string }`. -/
structure TextBlock where
  id : Nat
  text : String
deriving DecidableEq, Repr

/-- `interface VideoSegment { id; startTime; endTime; textId: string | null }`. -/
structure VideoSegment where
  id : Nat
  startTime : ℚ
  endTime : ℚ
  textId : Option Nat
deriving DecidableEq, Repr

/-- The two top-level collections mutated by the app (`segments`, `textBlocks`). -/
structure AppState where
  segments : List VideoSegment
  textBlocks : List TextBlock
deriving DecidableEq, Repr

/-- `handleLoadedMetadata`: a fresh video load replaces all segments with the
single segment `[0, d)` carrying no text reference. -/
def initializeSegments (freshId : Nat) (d : ℚ) : List VideoSegment :=
  [⟨freshId, 0, d, none⟩]

/-- `splitSegment`: find the first segment with `startTime < time < endTime`
(strict, via `findIndex`) and splice it into `[startTime, time)` (keeping id and
textId) followed by `[time, endTime)` with a fresh id and no text; if no segment
matches, return the list unchanged. -/
def splitSegment (time : ℚ) (freshId : Nat) : List VideoSegment → List VideoSegment
  | [] => []
  | s :: rest =>
    if s.startTime < time ∧ time < s.endTime then
      { s with endTime := time } :: ⟨freshId, time, s.endTime, none⟩ :: rest
    else
      s :: splitSegment time freshId rest

/-- The `splice(segmentIndex, 2, merged)` part of `mergeSegments`: replace the
segment at the index and its successor by one segment keeping the left id and
start, taking the right end, and resolving `textId` as `current.textId || next.textId`. -/
def mergeAt : Nat → List VideoSegment → List VideoSegment
  | _, [] => []
  | 0, [s] => [s]
  | 0, a :: b :: rest => { a with endTime := b.endTime, textId := a.textId.or b.textId } :: rest
  | i + 1, s :: rest => s :: mergeAt i rest

/-- `mergeSegments`: guarded by `if (segmentIndex >= segments.length - 1) return`
(JavaScript arithmetic, so any index with no strict successor is a no-op). -/
def mergeSegments (i : Nat) (segs : List VideoSegment) : List VideoSegment :=
  if segs.length ≤ i + 1 then segs else mergeAt i segs

/-- `deleteTextBlock`: drop the block from the library and clear `textId` on
every segment that referenced it. -/
def deleteTextBlock (tid : Nat) (st : AppState) : AppState :=
  { textBlocks := st.textBlocks.filter (fun b => b.id != tid),
    segments := st.segments.map (fun s =>
      if s.textId = some tid then { s with textId := none } else s) }

/-! ## LRC import: `parseLRCFile` -/

/-- One regex match of `\[(\d+):(\d+(\.\d+)?)\]`: the minutes digits, the
seconds digits, and the optional fraction digits. -/
abbrev LrcTag := List Char × List Char × Option (List Char)

/-- Try to match the tail of `\[(\d+):(\d+(\.\d+)?)\]` at the position just
after a `[`.  Greedy digit runs; the regex admits no backtracking alternative
(shrinking a `\d+` leaves a digit where `:` `.` or `]` is required), so the
scan is deterministic. -/
def parseTagAfter (cs : List Char) : Option (LrcTag × List Char) :=
  let p1 := cs.span Char.isDigit
  if p1.1.isEmpty then none else
  match p1.2 with
  | ':' :: cs2 =>
    let p2 := cs2.span Char.isDigit
    if p2.1.isEmpty then none else
    match p2.2 with
    | '.' :: cs3 =>
      let p3 := cs3.span Char.isDigit
      if p3.1.isEmpty then none else
      match p3.2 with
      | ']' :: rest => some ((p1.1, p2.1, some p3.1), rest)
      | _ => none
    | ']' :: rest => some ((p1.1, p2.1, none), rest)
    | _ => none
  | _ => none

/-- `line.matchAll(/\[(\d+):(\d+(\.\d+)?)\]/g)`: scan left to right; on a match
continue after it, on a failed attempt advance one character.  The fuel starts
at the length of the list, which every call strictly exceeds the consumed
prefix of, so it never runs out. -/
def scanTagsGo : Nat → List Char → List LrcTag
  | 0, _ => []
  | _ + 1, [] => []
  | fuel + 1, c :: cs =>
    if c = '[' then
      match parseTagAfter cs with
      | some (tg, rest) => tg :: scanTagsGo fuel rest
      | none => scanTagsGo fuel cs
    else scanTagsGo fuel cs

def scanTags (l : List Char) : List LrcTag := scanTagsGo l.length l

/-- `line.replace(/\[\d+:\d+(\.\d+)?\]/g, '')`: same pattern, deleting each
match and keeping every other character. -/
def stripTagsGo : Nat → List Char → List Char
  | 0, l => l
  | _ + 1, [] => []
  | fuel + 1, c :: cs =>
    if c = '[' then
      match parseTagAfter cs with
      | some (_, rest) => stripTagsGo fuel rest
      | none => c :: stripTagsGo fuel cs
    else c :: stripTagsGo fuel cs

def stripTags (l : List Char) : List Char := stripTagsGo l.length l

/-- `String.prototype.trim()` (whitespace at both ends). -/
def trimChars (l : List Char) : List Char :=
  ((l.dropWhile Char.isWhitespace).reverse.dropWhile Char.isWhitespace).reverse

/-- `text.split('\n')`. -/
def splitLines : List Char → List (List Char)
  | [] => [[]]
  | c :: cs =>
    if c = '\n' then [] :: splitLines cs
    else
      match splitLines cs with
      | l :: ls => (c :: l) :: ls
      | [] => [[c]]

/-- `parseInt` on a nonempty digit string. -/
def natOfDigits (l : List Char) : Nat :=
  l.foldl (fun a c => 10 * a + (c.toNat - 48)) 0

/-- `minutes * 60 + seconds` with `parseInt(match[1])` and `parseFloat(match[2])`. -/
def tagTime (tg : LrcTag) : ℚ :=
  let secs : ℚ := (natOfDigits tg.2.1 : ℚ) +
    (match tg.2.2 with
     | some f => (natOfDigits f : ℚ) / (10 : ℚ) ^ f.length
     | none => 0)
  60 * (natOfDigits tg.1 : ℚ) + secs

/-- One decoded `{time, text}` record. -/
structure LrcEntry where
  time : ℚ
  text : String
deriving DecidableEq, Repr

/-- The per-line body of the `lines.forEach` loop: every tag on the line yields
an entry whose text is the whole line with all tags stripped and trimmed, kept
when the stripped text is nonempty or the time is positive. -/
def lineEntries (line : List Char) : List LrcEntry :=
  let txt : String := ⟨trimChars (stripTags line)⟩
  ((scanTags line).map (fun tg => ⟨tagTime tg, txt⟩)).filter
    (fun e => e.text != "" || decide (0 < e.time))

/-- All entries pushed by the loop, in order: lines whose trimmed form is
nonempty, each contributing its tag entries. -/
def rawEntries (input : String) : List LrcEntry :=
  ((splitLines input.data).filter (fun l => !(trimChars l).isEmpty)).flatMap lineEntries

/-- `new Map(entries.map(e => [`time-text`, e])).values()`: dedupe by the exact
(time, text) pair, keeping the first occurrence's position. -/
def dedupEntriesGo (seen : List (ℚ × String)) : List LrcEntry → List LrcEntry
  | [] => []
  | e :: rest =>
    if (e.time, e.text) ∈ seen then dedupEntriesGo seen rest
    else e :: dedupEntriesGo ((e.time, e.text) :: seen) rest

def dedupEntries (l : List LrcEntry) : List LrcEntry := dedupEntriesGo [] l

/-- Stable insertion used to model `uniqueEntries.sort((a, b) => a.time - b.time)`
(`Array.prototype.sort` is stable and ascending by the comparator): each element
is inserted after all already-placed elements of less or equal time. -/
def insertEntry (e : LrcEntry) : List LrcEntry → List LrcEntry
  | [] => [e]
  | x :: xs => if x.time ≤ e.time then x :: insertEntry e xs else e :: x :: xs

def sortEntries (l : List LrcEntry) : List LrcEntry :=
  l.foldl (fun acc e => insertEntry e acc) []

structure ParseResult where
  entries : List LrcEntry
  maxTime : ℚ
deriving DecidableEq, Repr

/-- `parseLRCFile`: split into lines, keep the lines with nonblank content,
collect the surviving entries, dedupe, sort by time; `maxTime` is the running
`Math.max` (initially 0) over the times of the pushed entries. -/
def parseLRCFile (input : String) : ParseResult :=
  let raw := rawEntries input
  { entries := sortEntries (dedupEntries raw),
    maxTime := (raw.map (·.time)).foldl max 0 }

/-! ## LRC import: `handleLrcImport` -/

inductive ImportOutcome where
  | noEntries
  | durationMismatch (lrcMax videoDuration : ℚ)
  | success (entryCount blockCount : Nat)
deriving DecidableEq, Repr

/-- `entries.filter(text nonempty).map((entry, i) => ({id: fresh, text}))`,
with the fresh ids modelled as consecutive numbers from `fid`. -/
def mkTextBlocks (fid : Nat) : List LrcEntry → List TextBlock
  | [] => []
  | e :: rest => ⟨fid, e.text⟩ :: mkTextBlocks (fid + 1) rest

/-- `const allTimes = [0, ...timePoints.filter(t => t > 0 && t < duration), duration]`. -/
def decodeBoundaries (entries : List LrcEntry) (duration : ℚ) : List ℚ :=
  0 :: ((entries.map (·.time)).filter
    (fun t => decide (0 < t) && decide (t < duration)) ++ [duration])

/-- Text resolution for the segment starting at `startTime`:
`entries.find(e => Math.abs(e.time - startTime) < 0.01)`, then if it exists and
has nonempty text, `newTextBlocks.find(b => b.text === entry.text)?.id || null`. -/
def segTextId (entries : List LrcEntry) (blocks : List TextBlock) (startTime : ℚ) :
    Option Nat :=
  match entries.find? (fun e => decide (|e.time - startTime| < 1 / 100)) with
  | some e =>
    if e.text = "" then none
    else (blocks.find? (fun b => b.text == e.text)).map (·.id)
  | none => none

/-- The `for (let i = 0; i < allTimes.length - 1; i++)` loop: one segment per
consecutive pair of boundary times, with fresh ids. -/
def buildSegments (entries : List LrcEntry) (blocks : List TextBlock) (sid : Nat) :
    List ℚ → List VideoSegment
  | a :: b :: rest =>
    ⟨sid, a, b, segTextId entries blocks a⟩ ::
      buildSegments entries blocks (sid + 1) (b :: rest)
  | _ => []

/-- `handleLrcImport` on fully read file content: reject when no entries
survive, reject on duration mismatch (`duration > 0 && duration < maxTime`),
otherwise install the new text blocks and — when a video is loaded — the new
segments.  Rejections leave the state untouched. -/
def handleLrcImport (input : String) (duration : ℚ) (fid : Nat) (st : AppState) :
    AppState × ImportOutcome :=
  let pr := parseLRCFile input
  if pr.entries.isEmpty then (st, .noEntries)
  else if 0 < duration ∧ duration < pr.maxTime then
    (st, .durationMismatch pr.maxTime duration)
  else
    let blocks := mkTextBlocks fid (pr.entries.filter (fun e => e.text != ""))
    let st' :=
      if 0 < duration then
        { segments :=
            buildSegments pr.entries blocks (fid + blocks.length)
              (decodeBoundaries pr.entries duration),
          textBlocks := blocks }
      else { st with textBlocks := blocks }
    (st', .success pr.entries.length blocks.length)

/-! ## LRC export: `exportLRC` -/

/-- `String.prototype.padStart(n, c)`. -/
def padStart (s : String) (n : Nat) (c : Char) : String :=
  ⟨List.replicate (n - s.data.length) c ++ s.data⟩

/-- Decimal digits of a natural number (`Number.prototype.toString` for a
nonnegative integer); fuel `n + 1` always suffices since the fuel only
decreases alongside division by ten. -/
def natReprGo : Nat → Nat → List Char
  | 0, _ => []
  | fuel + 1, n =>
    if n < 10 then [Char.ofNat (48 + n)]
    else natReprGo fuel (n / 10) ++ [Char.ofNat (48 + n % 10)]

def natRepr (n : Nat) : String := ⟨natReprGo (n + 1) n⟩

/-- `Number.prototype.toString` for an integer. -/
def intRepr (z : ℤ) : String :=
  if z < 0 then "-" ++ natRepr z.natAbs else natRepr z.toNat

/-- JavaScript `%` truncates the quotient toward zero. -/
def jsTrunc (q : ℚ) : ℤ := if 0 ≤ q then ⌊q⌋ else ⌈q⌉

def jsMod (a n : ℚ) : ℚ := a - n * (jsTrunc (a / n) : ℚ)

/-- `Number.prototype.toFixed(2)` on a nonnegative value: round to the nearest
hundredth picking the larger on ties, then print with exactly two fraction
digits. -/
def toFixed2Mag (x : ℚ) : String :=
  let r := (⌊x * 100 + 1 / 2⌋).toNat
  natRepr (r / 100) ++ "." ++ padStart (natRepr (r % 100)) 2 '0'

/-- `Number.prototype.toFixed(2)`: sign first, then the magnitude. -/
def toFixed2 (x : ℚ) : String :=
  if x < 0 then "-" ++ toFixed2Mag (-x) else toFixed2Mag x

/-- `formatLrcTime` from `exportLRC`:
`` `[${m.toString().padStart(2, '0')}:${sRem.padStart(5, '0')}]` `` with
`m = Math.floor(seconds / 60)` and `sRem = (seconds % 60).toFixed(2)`. -/
def formatLrcTime (seconds : ℚ) : String :=
  "[" ++ padStart (intRepr ⌊seconds / 60⌋) 2 '0' ++ ":" ++
    padStart (toFixed2 (jsMod seconds 60)) 5 '0' ++ "]"

/-- The body of `segments.map(...)` in `exportLRC`: look the referenced block
up (when a reference is present) and append its text, or nothing. -/
def encodeLine (blocks : List TextBlock) (s : VideoSegment) : String :=
  let block : Option TextBlock :=
    match s.textId with
    | some tid => blocks.find? (fun b => b.id == tid)
    | none => none
  formatLrcTime s.startTime ++ (match block with | some b => b.text | none => "")

/-- `lrcLines.join('\n')`. -/
def joinWithNewline : List String → String
  | [] => ""
  | [s] => s
  | s :: rest => s ++ "\n" ++ joinWithNewline rest

/-- `exportLRC` (current version: unassigned segments are kept, with an empty
text suffix). -/
def exportLRC (segments : List VideoSegment) (blocks : List TextBlock) : String :=
  joinWithNewline (segments.map (encodeLine blocks))

/-! ## The partition invariant -/

/-- `boundaryChain lo hi segs`: the segments, in order, tile `[lo, hi)` exactly:
the first starts at `lo`, each is nonempty (`startTime < endTime`), each starts
where its predecessor ends, and the last ends at `hi`. -/
def boundaryChain (lo hi : ℚ) : List VideoSegment → Prop
  | [] => lo = hi
  | s :: rest => s.startTime = lo ∧ lo < s.endTime ∧ boundaryChain s.endTime hi rest

instance instDecBoundaryChain :
    ∀ (lo hi : ℚ) (segs : List VideoSegment), Decidable (boundaryChain lo hi segs)
  | _, _, [] => by unfold boundaryChain; infer_instance
  | lo, hi, s :: rest => by
    unfold boundaryChain
    have := instDecBoundaryChain s.endTime hi rest
    infer_instance

theorem boundaryChain_le {lo hi : ℚ} {segs : List VideoSegment}
    (h : boundaryChain lo hi segs) : lo ≤ hi := by
  induction segs generalizing lo with
  | nil => exact le_of_eq h
  | cons s rest ih =>
    obtain ⟨-, h2, h3⟩ := h
    exact le_of_lt (lt_of_lt_of_le h2 (ih h3))

theorem boundaryChain_bounds {lo hi : ℚ} {segs : List VideoSegment}
    (h : boundaryChain lo hi segs) :
    ∀ s ∈ segs, lo ≤ s.startTime ∧ s.startTime < s.endTime ∧ s.endTime ≤ hi := by
  induction segs generalizing lo with
  | nil => intro s hs; cases hs
  | cons a rest ih =>
    obtain ⟨h1, h2, h3⟩ := h
    intro s hs
    rcases List.mem_cons.mp hs with hs | hs
    · subst hs
      exact ⟨le_of_eq h1.symm, h1 ▸ h2, boundaryChain_le h3⟩
    · obtain ⟨hb1, hb2, hb3⟩ := ih h3 s hs
      exact ⟨le_trans (le_of_lt h2) hb1, hb2, hb3⟩

/-- `splitSegment` preserves the partition invariant (for any split time and
fresh id, whether or not a segment is actually split). -/
theorem boundaryChain_splitSegment {lo hi : ℚ} {segs : List VideoSegment}
    (t : ℚ) (fid : Nat) (h : boundaryChain lo hi segs) :
    boundaryChain lo hi (splitSegment t fid segs) := by
  induction segs generalizing lo with
  | nil => exact h
  | cons s rest ih =>
    obtain ⟨h1, h2, h3⟩ := h
    by_cases hc : s.startTime < t ∧ t < s.endTime
    · simp only [splitSegment, if_pos hc]
      exact ⟨h1, h1 ▸ hc.1, rfl, hc.2, h3⟩
    · simp only [splitSegment, if_neg hc]
      exact ⟨h1, h2, ih h3⟩

/-- `mergeAt` preserves the partition invariant at every index. -/
theorem boundaryChain_mergeAt {lo hi : ℚ} {segs : List VideoSegment}
    (i : Nat) (h : boundaryChain lo hi segs) :
    boundaryChain lo hi (mergeAt i segs) := by
  induction segs generalizing lo i with
  | nil => cases i <;> exact h
  | cons a rest ih =>
    match i, rest with
    | 0, [] => exact h
    | 0, b :: rest' =>
      obtain ⟨h1, h2, hb1, hb2, hb3⟩ := h
      exact ⟨h1, lt_trans h2 (hb1 ▸ hb2), hb3⟩
    | i + 1, rest =>
      obtain ⟨h1, h2, h3⟩ := h
      exact ⟨h1, h2, ih i h3⟩

theorem boundaryChain_mergeSegments {lo hi : ℚ} {segs : List VideoSegment}
    (i : Nat) (h : boundaryChain lo hi segs) :
    boundaryChain lo hi (mergeSegments i segs) := by
  unfold mergeSegments
  split
  · exact h
  · exact boundaryChain_mergeAt i h

theorem boundaryChain_initializeSegments {d : ℚ} (fid : Nat) (hd : 0 < d) :
    boundaryChain 0 d (initializeSegments fid d) :=
  ⟨rfl, hd, rfl⟩

/-! ## C1: the partition invariant under operation sequences -/

/-- One user-triggered timeline mutation (`Initialize` is spelled `reload`
since a fresh video load is what resets the timeline). -/
inductive TimelineOp where
  | reload (freshId : Nat) (duration : ℚ)
  | split (atTime : ℚ) (freshId : Nat)
  | merge (index : Nat)
deriving DecidableEq, Repr

/-- Apply one operation to the pair (current duration, current segments). -/
def applyOp (st : ℚ × List VideoSegment) : TimelineOp → ℚ × List VideoSegment
  | .reload fid d => (d, initializeSegments fid d)
  | .split t fid => (st.1, splitSegment t fid st.2)
  | .merge i => (st.1, mergeSegments i st.2)

def applyOps (st : ℚ × List VideoSegment) (ops : List TimelineOp) :
    ℚ × List VideoSegment :=
  ops.foldl applyOp st

/-- Every reload carries a positive duration (`Initialize`'s precondition). -/
def posDuration : TimelineOp → Prop
  | .reload _ d => 0 < d
  | .split _ _ => True
  | .merge _ => True

instance : DecidablePred posDuration := fun op => by
  cases op <;> (unfold posDuration; infer_instance)

theorem applyOps_boundaryChain {st : ℚ × List VideoSegment} {ops : List TimelineOp}
    (hst : 0 < st.1 ∧ boundaryChain 0 st.1 st.2)
    (hops : ∀ op ∈ ops, posDuration op) :
    0 < (applyOps st ops).1 ∧
      boundaryChain 0 (applyOps st ops).1 (applyOps st ops).2 := by
  induction ops generalizing st with
  | nil => exact hst
  | cons op ops ih =>
    have hop : posDuration op := hops op (List.mem_cons_self op ops)
    have hops' : ∀ o ∈ ops, posDuration o := fun o ho => hops o (List.mem_cons_of_mem op ho)
    refine ih ?_ hops'
    cases op with
    | reload fid d =>
      exact ⟨hop, boundaryChain_initializeSegments fid hop⟩
    | split t fid =>
      exact ⟨hst.1, boundaryChain_splitSegment t fid hst.2⟩
    | merge i =>
      exact ⟨hst.1, boundaryChain_mergeSegments i hst.2⟩

theorem boundaryChain_chain'_endStart {lo hi : ℚ} {segs : List VideoSegment}
    (h : boundaryChain lo hi segs) :
    segs.Chain' (fun a b => a.endTime = b.startTime) := by
  induction segs generalizing lo with
  | nil => exact List.chain'_nil
  | cons a rest ih =>
    obtain ⟨h1, h2, h3⟩ := h
    cases rest with
    | nil => exact List.chain'_singleton a
    | cons b rest' =>
      exact List.chain'_cons.mpr ⟨h3.1.symm, ih h3⟩

theorem boundaryChain_chain'_sorted {lo hi : ℚ} {segs : List VideoSegment}
    (h : boundaryChain lo hi segs) :
    segs.Chain' (fun a b => a.startTime < b.startTime) := by
  induction segs generalizing lo with
  | nil => exact List.chain'_nil
  | cons a rest ih =>
    obtain ⟨h1, h2, h3⟩ := h
    cases rest with
    | nil => exact List.chain'_singleton a
    | cons b rest' =>
      refine List.chain'_cons.mpr ⟨?_, ih h3⟩
      have := h3.1
      exact this ▸ (h1 ▸ h2)

theorem boundaryChain_head {lo hi : ℚ} {segs : List VideoSegment}
    (h : boundaryChain lo hi segs) (hne : lo ≠ hi) :
    segs.head?.map VideoSegment.startTime = some lo := by
  cases segs with
  | nil => exact absurd h hne
  | cons a rest => simp [List.head?, h.1]

theorem boundaryChain_getLast {lo hi : ℚ} {segs : List VideoSegment}
    (h : boundaryChain lo hi segs) (hne : lo ≠ hi) :
    segs.getLast?.map VideoSegment.endTime = some hi := by
  induction segs generalizing lo with
  | nil => exact absurd h hne
  | cons a rest ih =>
    obtain ⟨h1, h2, h3⟩ := h
    cases rest with
    | nil =>
      simp only [List.getLast?_singleton, Option.map_some']
      exact congrArg some h3
    | cons b rest' =>
      rw [List.getLast?_cons_cons]
      have hne' : a.endTime ≠ hi := by
        intro he
        have hb := boundaryChain_bounds h3 b (List.mem_cons_self b rest')
        linarith [hb.1, hb.2.1, hb.2.2]
      exact ih h3 hne'

/-- C1: starting from a fresh video load with positive duration, any sequence
of Initialize/Split/Merge operations (every Initialize with positive duration)
leaves the segment list sorted by start time, with consecutive segments sharing
a boundary, the first segment starting at 0 and the last segment ending at the
current duration. -/
theorem c1_partition_invariant (d : ℚ) (fid : Nat) (ops : List TimelineOp)
    (hd : 0 < d) (hops : ∀ op ∈ ops, posDuration op) :
    ((applyOps (d, initializeSegments fid d) ops).2.Chain'
        (fun a b => a.startTime < b.startTime)) ∧
    ((applyOps (d, initializeSegments fid d) ops).2.Chain'
        (fun a b => a.endTime = b.startTime)) ∧
    (applyOps (d, initializeSegments fid d) ops).2.head?.map VideoSegment.startTime
      = some 0 ∧
    (applyOps (d, initializeSegments fid d) ops).2.getLast?.map VideoSegment.endTime
      = some (applyOps (d, initializeSegments fid d) ops).1 := by
  have h := @applyOps_boundaryChain (d, initializeSegments fid d) ops
    ⟨hd, boundaryChain_initializeSegments fid hd⟩ hops
  exact ⟨boundaryChain_chain'_sorted h.2, boundaryChain_chain'_endStart h.2,
    boundaryChain_head h.2 (ne_of_lt h.1), boundaryChain_getLast h.2 (ne_of_lt h.1)⟩

/-- Witness for C1: a concrete run (split at 4, merge back, reload at duration
6, split at 3). -/
theorem c1_partition_invariant_witness :
    ((applyOps (10, initializeSegments 0 10)
        [.split 4 1, .merge 0, .reload 2 6, .split 3 3]).2.Chain'
        (fun a b => a.startTime < b.startTime)) ∧
    ((applyOps (10, initializeSegments 0 10)
        [.split 4 1, .merge 0, .reload 2 6, .split 3 3]).2.Chain'
        (fun a b => a.endTime = b.startTime)) ∧
    (applyOps (10, initializeSegments 0 10)
        [.split 4 1, .merge 0, .reload 2 6, .split 3 3]).2.head?.map
        VideoSegment.startTime = some 0 ∧
    (applyOps (10, initializeSegments 0 10)
        [.split 4 1, .merge 0, .reload 2 6, .split 3 3]).2.getLast?.map
        VideoSegment.endTime
      = some (applyOps (10, initializeSegments 0 10)
          [.split 4 1, .merge 0, .reload 2 6, .split 3 3]).1 :=
  c1_partition_invariant 10 0 [.split 4 1, .merge 0, .reload 2 6, .split 3 3]
    (by norm_num) (by with_unfolding_all decide)

/-! ## C4: merge -/

theorem mergeAt_eq_splice (segs : List VideoSegment) (i : Nat) (h : i + 1 < segs.length) :
    mergeAt i segs =
      segs.take i ++
        ⟨(segs.get ⟨i, Nat.lt_of_succ_lt h⟩).id,
         (segs.get ⟨i, Nat.lt_of_succ_lt h⟩).startTime,
         (segs.get ⟨i + 1, h⟩).endTime,
         ((segs.get ⟨i, Nat.lt_of_succ_lt h⟩).textId).or
           ((segs.get ⟨i + 1, h⟩).textId)⟩ :: segs.drop (i + 2) := by
  induction segs generalizing i with
  | nil => simp at h
  | cons a rest ih =>
    match i, rest with
    | 0, [] => simp at h
    | 0, b :: rest' => rfl
    | i + 1, rest =>
      have h' : i + 1 < rest.length := Nat.lt_of_succ_lt_succ h
      show a :: mergeAt i rest = a :: (rest.take i ++ _ :: rest.drop (i + 2))
      rw [ih i h']
      rfl

/-- C4: with a successor present, `Merge(index)` replaces the two segments by
one spanning from the first's start to the successor's end, whose text
reference is the first's if present and otherwise the successor's (this match
covers all four presence combinations), leaving every other segment unchanged;
with no successor (`index` last or beyond) it is a no-op. -/
theorem c4_merge_spec (segs : List VideoSegment) (i : Nat) :
    (∀ h : i + 1 < segs.length,
      mergeSegments i segs =
        segs.take i ++
          ⟨(segs.get ⟨i, Nat.lt_of_succ_lt h⟩).id,
           (segs.get ⟨i, Nat.lt_of_succ_lt h⟩).startTime,
           (segs.get ⟨i + 1, h⟩).endTime,
           (match (segs.get ⟨i, Nat.lt_of_succ_lt h⟩).textId with
            | some x => some x
            | none => (segs.get ⟨i + 1, h⟩).textId)⟩ :: segs.drop (i + 2)) ∧
    (segs.length ≤ i + 1 → mergeSegments i segs = segs) := by
  constructor
  · intro h
    have hor :
        (match (segs.get ⟨i, Nat.lt_of_succ_lt h⟩).textId with
          | some x => some x
          | none => (segs.get ⟨i + 1, h⟩).textId)
          = ((segs.get ⟨i, Nat.lt_of_succ_lt h⟩).textId).or
              ((segs.get ⟨i + 1, h⟩).textId) := by
      cases (segs.get ⟨i, Nat.lt_of_succ_lt h⟩).textId <;> rfl
    rw [hor, mergeSegments, if_neg (by omega)]
    exact mergeAt_eq_splice segs i h
  · intro h
    rw [mergeSegments, if_pos h]

/-- Witness for C4: merging index 0 of a two-segment list, and the no-op at the
last index. -/
theorem c4_merge_spec_witness :
    mergeSegments 0 [⟨0, 0, 1, some 5⟩, ⟨1, 1, 2, none⟩] = [⟨0, 0, 2, some 5⟩] ∧
    mergeSegments 1 [⟨0, 0, 1, some 5⟩, ⟨1, 1, 2, none⟩]
      = [⟨0, 0, 1, some 5⟩, ⟨1, 1, 2, none⟩] :=
  ⟨((c4_merge_spec [⟨0, 0, 1, some 5⟩, ⟨1, 1, 2, none⟩] 0).1
      (by norm_num)).trans (by with_unfolding_all decide),
   (c4_merge_spec [⟨0, 0, 1, some 5⟩, ⟨1, 1, 2, none⟩] 1).2 (by norm_num)⟩

/-! ## C5: split -/

theorem splitSegment_interior (t : ℚ) (fid : Nat) (segs : List VideoSegment)
    (i : Nat) (hi : i < segs.length)
    (hm : (segs.get ⟨i, hi⟩).startTime < t ∧ t < (segs.get ⟨i, hi⟩).endTime)
    (hu : ∀ j (hj : j < segs.length),
      (segs.get ⟨j, hj⟩).startTime < t ∧ t < (segs.get ⟨j, hj⟩).endTime → j = i) :
    splitSegment t fid segs =
      segs.take i ++
        ⟨(segs.get ⟨i, hi⟩).id, (segs.get ⟨i, hi⟩).startTime, t,
          (segs.get ⟨i, hi⟩).textId⟩ ::
        ⟨fid, t, (segs.get ⟨i, hi⟩).endTime, none⟩ :: segs.drop (i + 1) := by
  induction segs generalizing i with
  | nil => simp at hi
  | cons s rest ih =>
    cases i with
    | zero =>
      have hm0 : s.startTime < t ∧ t < s.endTime := hm
      simp only [splitSegment, if_pos hm0]
      rfl
    | succ j =>
      have hns : ¬(s.startTime < t ∧ t < s.endTime) := by
        intro hc
        exact absurd (hu 0 (Nat.succ_pos _) hc).symm (Nat.succ_ne_zero j)
      simp only [splitSegment, if_neg hns]
      have hj : j < rest.length := Nat.lt_of_succ_lt_succ hi
      rw [ih j hj hm ?_]
      · rfl
      · intro k hk hck
        have := hu (k + 1) (Nat.succ_lt_succ hk) hck
        omega

theorem splitSegment_noop (t : ℚ) (fid : Nat) (segs : List VideoSegment)
    (h : ∀ s ∈ segs, ¬(s.startTime < t ∧ t < s.endTime)) :
    splitSegment t fid segs = segs := by
  induction segs with
  | nil => rfl
  | cons s rest ih =>
    rw [splitSegment, if_neg (h s (List.mem_cons_self s rest)),
      ih (fun x hx => h x (List.mem_cons_of_mem s hx))]

/-- On a partition, no segment boundary is interior to any segment. -/
theorem boundaryChain_no_interior {lo hi : ℚ} {segs : List VideoSegment}
    (h : boundaryChain lo hi segs) :
    ∀ s ∈ segs, ∀ x ∈ segs,
      ¬(s.startTime < x.startTime ∧ x.startTime < s.endTime) ∧
      ¬(s.startTime < x.endTime ∧ x.endTime < s.endTime) := by
  induction segs generalizing lo with
  | nil => intro s hs; cases hs
  | cons a rest ih =>
    obtain ⟨h1, h2, h3⟩ := h
    intro s hs x hx
    rcases List.mem_cons.mp hs with hsa | hs
    · rcases List.mem_cons.mp hx with hxa | hx
      · constructor
        · intro hc; rw [hsa, hxa] at hc; exact lt_irrefl _ hc.1
        · intro hc; rw [hsa, hxa] at hc; exact lt_irrefl _ hc.2
      · have hb := boundaryChain_bounds h3 x hx
        constructor
        · intro hc; rw [hsa] at hc; linarith [hb.1, hc.2]
        · intro hc; rw [hsa] at hc; linarith [hb.1, hb.2.1, hc.2]
    · rcases List.mem_cons.mp hx with hxa | hx
      · have hb := boundaryChain_bounds h3 s hs
        constructor
        · intro hc; rw [hxa] at hc; linarith [hb.1, hc.1, h2]
        · intro hc; rw [hxa] at hc; linarith [hb.1, hc.1]
      · exact ih h3 s hs x hx

/-- C5: if exactly one segment has `startTime < t < endTime`, `Split(t)`
replaces it by `[startTime, t)` keeping id and text reference followed by
`[t, endTime)` with a fresh id and no reference, leaving all other segments
unchanged; if no segment strictly contains `t`, the list is unchanged; in
particular, on a partition of `[0, d)`, splitting at any existing boundary or
outside the covered range is a no-op. -/
theorem c5_split_spec (t : ℚ) (fid : Nat) (segs : List VideoSegment) :
    (∀ i (hi : i < segs.length),
      ((segs.get ⟨i, hi⟩).startTime < t ∧ t < (segs.get ⟨i, hi⟩).endTime) →
      (∀ j (hj : j < segs.length),
        (segs.get ⟨j, hj⟩).startTime < t ∧ t < (segs.get ⟨j, hj⟩).endTime → j = i) →
      splitSegment t fid segs =
        segs.take i ++
          ⟨(segs.get ⟨i, hi⟩).id, (segs.get ⟨i, hi⟩).startTime, t,
            (segs.get ⟨i, hi⟩).textId⟩ ::
          ⟨fid, t, (segs.get ⟨i, hi⟩).endTime, none⟩ :: segs.drop (i + 1)) ∧
    ((∀ s ∈ segs, ¬(s.startTime < t ∧ t < s.endTime)) →
      splitSegment t fid segs = segs) ∧
    (∀ d : ℚ, boundaryChain 0 d segs →
      ((∃ x ∈ segs, t = x.startTime ∨ t = x.endTime) ∨ t < 0 ∨ d < t) →
      splitSegment t fid segs = segs) := by
  refine ⟨fun i hi hm hu => splitSegment_interior t fid segs i hi hm hu,
    splitSegment_noop t fid segs, ?_⟩
  intro d hchain hcond
  apply splitSegment_noop
  intro s hs hcont
  rcases hcond with ⟨x, hx, hxt⟩ | hlt | hgt
  · have hni := boundaryChain_no_interior hchain s hs x hx
    rcases hxt with h4 | h4
    · exact hni.1 (h4 ▸ hcont)
    · exact hni.2 (h4 ▸ hcont)
  · have h0 := (boundaryChain_bounds hchain s hs).1
    linarith [hcont.1]
  · have hd := (boundaryChain_bounds hchain s hs).2.2
    linarith [hcont.2]

/-- Witness for C5: splitting `[0,2) ∪ [2,4)` at the interior time 1, and the
no-op on the boundary time 2. -/
theorem c5_split_spec_witness :
    splitSegment 1 9 [⟨0, 0, 2, some 3⟩, ⟨1, 2, 4, none⟩]
      = [⟨0, 0, 1, some 3⟩, ⟨9, 1, 2, none⟩, ⟨1, 2, 4, none⟩] ∧
    splitSegment 2 9 [⟨0, 0, 2, some 3⟩, ⟨1, 2, 4, none⟩]
      = [⟨0, 0, 2, some 3⟩, ⟨1, 2, 4, none⟩] :=
  ⟨((c5_split_spec 1 9 [⟨0, 0, 2, some 3⟩, ⟨1, 2, 4, none⟩]).1 0 (by norm_num)
      (by with_unfolding_all decide) (by with_unfolding_all decide)).trans
      (by with_unfolding_all decide),
   (c5_split_spec 2 9 [⟨0, 0, 2, some 3⟩, ⟨1, 2, 4, none⟩]).2.2 4
      (by with_unfolding_all decide) (by with_unfolding_all decide)⟩


/-! ## C8: deleting a text block cascades -/

/-- C8: deleting a text entry removes exactly that entry from the library
(membership characterization) and clears the reference on exactly the segments
that pointed at it, leaving every segment's id, start and end (and every other
reference) unchanged — in particular no segment is deleted or shrunk. -/
theorem c8_delete_cascade (tid : Nat) (st : AppState) :
    (deleteTextBlock tid st).segments.length = st.segments.length ∧
    (∀ i (hi : i < st.segments.length)
        (hi' : i < (deleteTextBlock tid st).segments.length),
      ((deleteTextBlock tid st).segments.get ⟨i, hi'⟩).id
          = (st.segments.get ⟨i, hi⟩).id ∧
      ((deleteTextBlock tid st).segments.get ⟨i, hi'⟩).startTime
          = (st.segments.get ⟨i, hi⟩).startTime ∧
      ((deleteTextBlock tid st).segments.get ⟨i, hi'⟩).endTime
          = (st.segments.get ⟨i, hi⟩).endTime ∧
      ((deleteTextBlock tid st).segments.get ⟨i, hi'⟩).textId
          = (if (st.segments.get ⟨i, hi⟩).textId = some tid then none
             else (st.segments.get ⟨i, hi⟩).textId)) ∧
    (∀ b : TextBlock,
      b ∈ (deleteTextBlock tid st).textBlocks ↔ b ∈ st.textBlocks ∧ b.id ≠ tid) := by
  refine ⟨by simp [deleteTextBlock], ?_, ?_⟩
  · intro i hi hi'
    simp only [deleteTextBlock, List.get_eq_getElem, List.getElem_map]
    by_cases hc : st.segments[i].textId = some tid
    · simp [hc]
    · simp [hc]
  · intro b
    show b ∈ st.textBlocks.filter (fun b => b.id != tid) ↔ _
    simp [List.mem_filter, bne_iff_ne]

/-- Witness for C8 on a concrete state with one referencing and one
non-referencing segment. -/
theorem c8_delete_cascade_witness :
    ((deleteTextBlock 5 ⟨[⟨0, 0, 1, some 5⟩, ⟨1, 1, 2, some 4⟩],
        [⟨5, "x"⟩, ⟨4, "y"⟩]⟩).segments.get
        ⟨0, by with_unfolding_all decide⟩).textId = none ∧
    (∀ b : TextBlock,
      b ∈ (deleteTextBlock 5 ⟨[⟨0, 0, 1, some 5⟩, ⟨1, 1, 2, some 4⟩],
          [⟨5, "x"⟩, ⟨4, "y"⟩]⟩).textBlocks ↔
        b ∈ [(⟨5, "x"⟩ : TextBlock), ⟨4, "y"⟩] ∧ b.id ≠ 5) :=
  ⟨((c8_delete_cascade 5 ⟨[⟨0, 0, 1, some 5⟩, ⟨1, 1, 2, some 4⟩],
        [⟨5, "x"⟩, ⟨4, "y"⟩]⟩).2.1 0 (by norm_num)
        (by with_unfolding_all decide)).2.2.2.trans (by with_unfolding_all decide),
   (c8_delete_cascade 5 ⟨[⟨0, 0, 1, some 5⟩, ⟨1, 1, 2, some 4⟩],
        [⟨5, "x"⟩, ⟨4, "y"⟩]⟩).2.2⟩

/-! ## C7: export produces one line per segment -/

/-- Follows the spec's words (§4.3): the text suffix of a line is the
referenced entry's text, or the empty string when the segment is unreferenced. -/
def specLineText (blocks : List TextBlock) : Option Nat → String
  | none => ""
  | some tid =>
    match blocks.find? (fun b => b.id == tid) with
    | some b => b.text
    | none => ""

/-- Follows the spec's words (§4.3): the line of one segment is
`[MM:SS.ss]<text>`. -/
def specEncodeLine (blocks : List TextBlock) (s : VideoSegment) : String :=
  formatLrcTime s.startTime ++ specLineText blocks s.textId

/-- Follows the spec's words (§4.3): one line per segment, in segment order,
joined with a single newline between lines; no header, no trailing metadata. -/
def specExportLRC (segments : List VideoSegment) (blocks : List TextBlock) : String :=
  joinWithNewline (segments.map (specEncodeLine blocks))

theorem encodeLine_eq_spec (blocks : List TextBlock) (s : VideoSegment) :
    encodeLine blocks s = specEncodeLine blocks s := by
  cases hs : s.textId with
  | none => simp [encodeLine, specEncodeLine, specLineText, hs]
  | some tid =>
    cases hf : blocks.find? (fun b => b.id == tid) <;>
      simp [encodeLine, specEncodeLine, specLineText, hs, hf]

/-- C7: the export is exactly the spec's serialization — one line per segment
(the line list has the same length as the segment list), in segment order,
joined with a single newline and nothing else; a segment with no text
reference still gets a line, whose text suffix is empty. -/
theorem c7_export_line_per_segment (segments : List VideoSegment)
    (blocks : List TextBlock) :
    exportLRC segments blocks = specExportLRC segments blocks ∧
    (segments.map (specEncodeLine blocks)).length = segments.length ∧
    (∀ s ∈ segments, s.textId = none →
      specEncodeLine blocks s = formatLrcTime s.startTime) := by
  refine ⟨?_, by simp, ?_⟩
  · have h : encodeLine blocks = specEncodeLine blocks :=
      funext (encodeLine_eq_spec blocks)
    rw [exportLRC, specExportLRC, h]
  · intro s hs h0
    show formatLrcTime s.startTime ++ specLineText blocks s.textId = _
    rw [h0]
    show formatLrcTime s.startTime ++ "" = _
    exact String.append_empty _

/-- Witness for C7: a two-segment list whose first segment has no text. -/
theorem c7_export_line_per_segment_witness :
    exportLRC [⟨0, 0, 2, none⟩, ⟨1, 2, 3, some 4⟩] [⟨4, "Hey"⟩]
      = specExportLRC [⟨0, 0, 2, none⟩, ⟨1, 2, 3, some 4⟩] [⟨4, "Hey"⟩] ∧
    specEncodeLine [⟨4, "Hey"⟩] ⟨0, 0, 2, none⟩ = formatLrcTime 0 :=
  ⟨(c7_export_line_per_segment [⟨0, 0, 2, none⟩, ⟨1, 2, 3, some 4⟩] [⟨4, "Hey"⟩]).1,
   (c7_export_line_per_segment [⟨0, 0, 2, none⟩, ⟨1, 2, 3, some 4⟩] [⟨4, "Hey"⟩]).2.2
     ⟨0, 0, 2, none⟩ (List.mem_cons_self _ _) rfl⟩


/-! ## C9: the encoded time field -/

theorem natReprGo_small (f n : Nat) (h : n < 10) :
    natReprGo (f + 1) n = [Char.ofNat (48 + n)] := by
  rw [natReprGo, if_pos h]

theorem natReprGo_ge_one (f n : Nat) : 1 ≤ (natReprGo (f + 1) n).length := by
  rw [natReprGo]
  split
  · simp
  · simp

theorem natRepr_length_le_two {n : Nat} (h : n < 100) : (natRepr n).length ≤ 2 := by
  show (natReprGo (n + 1) n).length ≤ 2
  rw [natReprGo]
  split
  · simp
  · rename_i hn
    obtain ⟨m, rfl⟩ : ∃ m, n = m + 1 := ⟨n - 1, by omega⟩
    rw [natReprGo_small m ((m + 1) / 10) (by omega)]
    simp

theorem natRepr_length_ge_three {n : Nat} (h : 100 ≤ n) : 3 ≤ (natRepr n).length := by
  show 3 ≤ (natReprGo (n + 1) n).length
  rw [natReprGo, if_neg (by omega)]
  obtain ⟨m, rfl⟩ : ∃ m, n = m + 1 := ⟨n - 1, by omega⟩
  rw [natReprGo, if_neg (by omega)]
  obtain ⟨k, rfl⟩ : ∃ k, m = k + 1 := ⟨m - 1, by omega⟩
  have h1 := natReprGo_ge_one k ((k + 1 + 1) / 10 / 10)
  simp only [List.length_append, List.length_singleton]
  omega

theorem padStart_length (s : String) (n : Nat) (c : Char) :
    (padStart s n c).length = max n s.length := by
  show (List.replicate (n - s.data.length) c ++ s.data).length = max n s.data.length
  simp only [List.length_append, List.length_replicate]
  omega

theorem padStart_of_ge (s : String) (n : Nat) (c : Char) (h : n ≤ s.length) :
    padStart s n c = s := by
  show String.mk (List.replicate (n - s.data.length) c ++ s.data) = s
  have h0 : n - s.data.length = 0 := Nat.sub_eq_zero_of_le h
  rw [h0, List.replicate_zero, List.nil_append]

theorem jsMod_sixty_eq {s : ℚ} (h : 0 ≤ s) : jsMod s 60 = s - 60 * ⌊s / 60⌋ := by
  unfold jsMod jsTrunc
  rw [if_pos (div_nonneg h (by norm_num))]

theorem sixty_mul_div (s : ℚ) : (60 : ℚ) * (s / 60) = s := by
  field_simp

theorem jsMod_sixty_nonneg {s : ℚ} (h : 0 ≤ s) : 0 ≤ jsMod s 60 := by
  rw [jsMod_sixty_eq h]
  have h1 := Int.floor_le (s / 60)
  have h2 := mul_le_mul_of_nonneg_left h1 (by norm_num : (0:ℚ) ≤ 60)
  rw [sixty_mul_div] at h2
  linarith

theorem jsMod_sixty_lt {s : ℚ} (h : 0 ≤ s) : jsMod s 60 < 60 := by
  rw [jsMod_sixty_eq h]
  have h1 := Int.lt_floor_add_one (s / 60)
  have h2 := mul_lt_mul_of_pos_left h1 (by norm_num : (0:ℚ) < 60)
  rw [sixty_mul_div] at h2
  linarith

theorem toFixed2Mag_parts (x : ℚ) :
    toFixed2Mag x =
      natRepr ((⌊x * 100 + 1 / 2⌋).toNat / 100) ++ "."
        ++ padStart (natRepr ((⌊x * 100 + 1 / 2⌋).toNat % 100)) 2 '0' := rfl

theorem toFixed2Mag_length_le {x : ℚ} (h60 : x < 60) :
    (toFixed2Mag x).length ≤ 5 := by
  rw [toFixed2Mag_parts]
  have hr : (⌊x * 100 + 1 / 2⌋).toNat ≤ 6000 := by
    have hf : ⌊x * 100 + 1 / 2⌋ < 6001 := by
      apply Int.floor_lt.mpr
      push_cast
      linarith
    omega
  have h1 : (natRepr ((⌊x * 100 + 1 / 2⌋).toNat / 100)).length ≤ 2 :=
    natRepr_length_le_two (by omega)
  have h2 : (padStart (natRepr ((⌊x * 100 + 1 / 2⌋).toNat % 100)) 2 '0').length = 2 := by
    rw [padStart_length]
    have := natRepr_length_le_two
      (by omega : (⌊x * 100 + 1 / 2⌋).toNat % 100 < 100)
    omega
  rw [String.length_append, String.length_append, h2]
  have h3 : ("." : String).length = 1 := rfl
  omega

/-- C9: for a nonnegative time, the encoded field is
`[MM:SS.ss]` where `MM` is `floor(startTime / 60)` zero-padded to at least two
digits (kept at natural width from 100 on) and `SS.ss` is `startTime mod 60`
rounded to exactly two fraction digits and left-zero-padded to width 5; the
concrete segment `{startTime: 63.4, endTime: 90}` referencing `"Hello"`
encodes to `[01:03.40]Hello`. -/
theorem c9_time_format :
    (exportLRC [⟨0, 63.4, 90, some 7⟩] [⟨7, "Hello"⟩] = "[01:03.40]Hello") ∧
    (∀ s : ℚ, 0 ≤ s →
      formatLrcTime s
        = "[" ++ padStart (natRepr (⌊s / 60⌋).toNat) 2 '0' ++ ":"
            ++ padStart (toFixed2Mag (jsMod s 60)) 5 '0' ++ "]" ∧
      jsMod s 60 = s - 60 * ⌊s / 60⌋ ∧
      2 ≤ (padStart (natRepr (⌊s / 60⌋).toNat) 2 '0').length ∧
      (100 ≤ ⌊s / 60⌋ →
        padStart (natRepr (⌊s / 60⌋).toNat) 2 '0' = natRepr (⌊s / 60⌋).toNat) ∧
      (padStart (toFixed2Mag (jsMod s 60)) 5 '0').length = 5 ∧
      toFixed2Mag (jsMod s 60)
        = natRepr ((⌊jsMod s 60 * 100 + 1 / 2⌋).toNat / 100) ++ "."
            ++ padStart (natRepr ((⌊jsMod s 60 * 100 + 1 / 2⌋).toNat % 100)) 2 '0' ∧
      (padStart (natRepr ((⌊jsMod s 60 * 100 + 1 / 2⌋).toNat % 100)) 2 '0').length
        = 2) := by
  constructor
  · with_unfolding_all decide
  · intro s hs
    have hfl : (0 : ℤ) ≤ ⌊s / 60⌋ := Int.floor_nonneg.mpr (div_nonneg hs (by norm_num))
    have hmodnn := jsMod_sixty_nonneg hs
    have hmodlt := jsMod_sixty_lt hs
    refine ⟨?_, jsMod_sixty_eq hs, ?_, ?_, ?_, toFixed2Mag_parts _, ?_⟩
    · unfold formatLrcTime intRepr toFixed2
      rw [if_neg (by omega), if_neg (not_lt.mpr hmodnn)]
    · rw [padStart_length]
      exact le_max_left _ _
    · intro h100
      apply padStart_of_ge
      have : 100 ≤ (⌊s / 60⌋).toNat := by omega
      have h3 := natRepr_length_ge_three this
      omega
    · rw [padStart_length]
      have := toFixed2Mag_length_le hmodlt
      omega
    · rw [padStart_length]
      have hr : (⌊jsMod s 60 * 100 + 1 / 2⌋).toNat % 100 < 100 := by omega
      have := natRepr_length_le_two hr
      omega

/-- Witness for C9's formatting clause at the concrete time 63.4. -/
theorem c9_time_format_witness :
    formatLrcTime 63.4
      = "[" ++ padStart (natRepr (⌊(63.4 : ℚ) / 60⌋).toNat) 2 '0' ++ ":"
          ++ padStart (toFixed2Mag (jsMod 63.4 60)) 5 '0' ++ "]" :=
  (c9_time_format.2 63.4 (by norm_num)).1


/-! ## C6: oversized imports are rejected without touching state -/

theorem mem_insertEntry {x e : LrcEntry} {l : List LrcEntry} :
    x ∈ insertEntry e l ↔ x = e ∨ x ∈ l := by
  induction l with
  | nil => simp [insertEntry]
  | cons a rest ih =>
    rw [insertEntry]
    split
    all_goals simp only [List.mem_cons, ih]
    all_goals tauto

theorem mem_foldl_insertEntry {x : LrcEntry} :
    ∀ {l acc : List LrcEntry},
      x ∈ l.foldl (fun acc e => insertEntry e acc) acc ↔ x ∈ acc ∨ x ∈ l := by
  intro l
  induction l with
  | nil => simp
  | cons a rest ih =>
    intro acc
    rw [List.foldl_cons, ih, mem_insertEntry]
    simp only [List.mem_cons]
    tauto

theorem mem_sortEntries {x : LrcEntry} {l : List LrcEntry} :
    x ∈ sortEntries l ↔ x ∈ l := by
  rw [sortEntries, mem_foldl_insertEntry]
  simp

theorem mem_of_mem_dedupEntriesGo {x : LrcEntry} :
    ∀ {seen : List (ℚ × String)} {l : List LrcEntry},
      x ∈ dedupEntriesGo seen l → x ∈ l := by
  intro seen l
  induction l generalizing seen with
  | nil => intro h; exact absurd h (by simp [dedupEntriesGo])
  | cons e rest ih =>
    intro h
    rw [dedupEntriesGo] at h
    split at h
    · exact List.mem_cons_of_mem e (ih h)
    · rcases List.mem_cons.mp h with h1 | h1
      · exact h1 ▸ List.mem_cons_self e rest
      · exact List.mem_cons_of_mem e (ih h1)

theorem le_foldl_max (l : List ℚ) (a : ℚ) : a ≤ l.foldl max a := by
  induction l generalizing a with
  | nil => exact le_refl a
  | cons x rest ih =>
    rw [List.foldl_cons]
    exact le_trans (le_max_left a x) (ih (max a x))

theorem mem_le_foldl_max {x : ℚ} {l : List ℚ} (h : x ∈ l) (a : ℚ) :
    x ≤ l.foldl max a := by
  induction l generalizing a with
  | nil => cases h
  | cons y rest ih =>
    rw [List.foldl_cons]
    rcases List.mem_cons.mp h with h1 | h1
    · rw [h1]
      exact le_trans (le_max_right a y) (le_foldl_max rest (max a y))
    · exact ih h1 (max a y)

/-- Every surviving entry's time is bounded by the reported `maxTime`. -/
theorem entry_time_le_maxTime {input : String} {e : LrcEntry}
    (he : e ∈ (parseLRCFile input).entries) :
    e.time ≤ (parseLRCFile input).maxTime := by
  have hraw : e ∈ rawEntries input :=
    mem_of_mem_dedupEntriesGo (mem_sortEntries.mp he)
  exact mem_le_foldl_max (List.mem_map_of_mem LrcEntry.time hraw) 0

/-- C6: when some surviving decoded entry's time exceeds a known positive
duration, the import reports a duration mismatch naming the maximum entry time
and the duration, and returns the state unchanged. -/
theorem c6_reject_oversized (input : String) (duration : ℚ) (fid : Nat)
    (st : AppState) (hd : 0 < duration)
    (hover : ∃ e ∈ (parseLRCFile input).entries, duration < e.time) :
    handleLrcImport input duration fid st
      = (st, .durationMismatch (parseLRCFile input).maxTime duration) := by
  obtain ⟨e, he, hlt⟩ := hover
  have hne : ¬((parseLRCFile input).entries.isEmpty = true) := by
    cases h : (parseLRCFile input).entries with
    | nil => rw [h] at he; cases he
    | cons a l => simp [h]
  have hmax : duration < (parseLRCFile input).maxTime :=
    lt_of_lt_of_le hlt (entry_time_le_maxTime he)
  simp only [handleLrcImport]
  rw [if_neg hne, if_pos ⟨hd, hmax⟩]

/-- Witness for C6: duration 10 against an input containing `[00:15.00]hello`. -/
theorem c6_reject_oversized_witness :
    handleLrcImport "some lyric\n[00:15.00]hello" 10 0 ⟨[], []⟩
      = (⟨[], []⟩, .durationMismatch 15 10) :=
  (c6_reject_oversized "some lyric\n[00:15.00]hello" 10 0 ⟨[], []⟩ (by norm_num)
      (by with_unfolding_all decide)).trans (by with_unfolding_all decide)


/-! ## C2: decode boundaries and the built segments -/

theorem insertEntry_pairwise {e : LrcEntry} {l : List LrcEntry}
    (h : l.Pairwise (fun a b => a.time ≤ b.time)) :
    (insertEntry e l).Pairwise (fun a b => a.time ≤ b.time) := by
  induction l with
  | nil => simp [insertEntry]
  | cons x xs ih =>
    rw [insertEntry]
    rw [List.pairwise_cons] at h
    split
    · rename_i hle
      rw [List.pairwise_cons]
      refine ⟨?_, ih h.2⟩
      intro y hy
      rcases mem_insertEntry.mp hy with h1 | h1
      · rw [h1]; exact hle
      · exact h.1 y h1
    · rename_i hgt
      push_neg at hgt
      rw [List.pairwise_cons]
      refine ⟨?_, List.pairwise_cons.mpr h⟩
      intro y hy
      rcases List.mem_cons.mp hy with h1 | h1
      · rw [h1]; exact le_of_lt hgt
      · exact le_trans (le_of_lt hgt) (h.1 y h1)

theorem foldl_insertEntry_pairwise :
    ∀ (l acc : List LrcEntry), acc.Pairwise (fun a b => a.time ≤ b.time) →
      (l.foldl (fun acc e => insertEntry e acc) acc).Pairwise
        (fun a b => a.time ≤ b.time) := by
  intro l
  induction l with
  | nil => intro acc h; exact h
  | cons e rest ih =>
    intro acc h
    rw [List.foldl_cons]
    exact ih _ (insertEntry_pairwise h)

/-- The decoded entry list is sorted ascending by time. -/
theorem sortEntries_sorted (l : List LrcEntry) :
    (sortEntries l).Pairwise (fun a b => a.time ≤ b.time) :=
  foldl_insertEntry_pairwise l [] List.Pairwise.nil

theorem buildSegments_pairs (entries : List LrcEntry) (blocks : List TextBlock) :
    ∀ (ts : List ℚ) (sid : Nat),
      (buildSegments entries blocks sid ts).map (fun s => (s.startTime, s.endTime))
        = ts.zip ts.tail := by
  intro ts
  induction ts with
  | nil => intro sid; rfl
  | cons a rest ih =>
    intro sid
    cases rest with
    | nil => rfl
    | cons b rest' =>
      show (a, b) ::
          (buildSegments entries blocks (sid + 1) (b :: rest')).map
            (fun s => (s.startTime, s.endTime))
        = (a, b) :: (b :: rest').zip rest'
      rw [ih (sid + 1)]
      rfl

theorem boundaryChain_buildSegments (entries : List LrcEntry) (blocks : List TextBlock) :
    ∀ (ts : List ℚ) (sid : Nat) (lo hi : ℚ),
      ts.Chain' (· < ·) → ts.head? = some lo → ts.getLast? = some hi →
      boundaryChain lo hi (buildSegments entries blocks sid ts) := by
  intro ts
  induction ts with
  | nil => intro sid lo hi _ h _; cases h
  | cons a rest ih =>
    intro sid lo hi hch hhead hlast
    have ha : a = lo := by simpa using hhead
    cases rest with
    | nil =>
      have hb : a = hi := by simpa using hlast
      show boundaryChain lo hi []
      rw [boundaryChain]
      exact ha.symm.trans hb
    | cons b rest' =>
      rw [List.chain'_cons] at hch
      refine ⟨ha, ha ▸ hch.1, ?_⟩
      refine ih (sid + 1) b hi hch.2 rfl ?_
      rw [List.getLast?_cons_cons] at hlast
      exact hlast

theorem mem_decodeBoundaries (entries : List LrcEntry) (duration t : ℚ) :
    t ∈ decodeBoundaries entries duration ↔
      (t = 0 ∨ t = duration ∨
        (0 < t ∧ t < duration ∧ ∃ e ∈ entries, e.time = t)) := by
  rw [decodeBoundaries, List.mem_cons, List.mem_append, List.mem_singleton,
    List.mem_filter]
  simp only [Bool.and_eq_true, decide_eq_true_eq, List.mem_map]
  constructor
  · rintro (h0 | ⟨⟨e, he, het⟩, hc1, hc2⟩ | hdur)
    · exact Or.inl h0
    · exact Or.inr (Or.inr ⟨hc1, hc2, e, he, het⟩)
    · exact Or.inr (Or.inl hdur)
  · rintro (h0 | hdur | ⟨h1, h2, e, he, het⟩)
    · exact Or.inl h0
    · exact Or.inr (Or.inr hdur)
    · exact Or.inr (Or.inl ⟨⟨e, he, het⟩, h1, h2⟩)

theorem decodeBoundaries_pairwise {entries : List LrcEntry} {duration : ℚ}
    (hd : 0 < duration)
    (hsorted : entries.Pairwise (fun a b => a.time ≤ b.time))
    (hdistinct : entries.Pairwise (fun a b => a.time ≠ b.time)) :
    (decodeBoundaries entries duration).Pairwise (· < ·) := by
  have htimes : (entries.map LrcEntry.time).Pairwise (· < ·) := by
    rw [List.pairwise_map]
    exact (hsorted.and hdistinct).imp (fun h => lt_of_le_of_ne h.1 h.2)
  have hfilt := htimes.filter (fun t => decide (0 < t) && decide (t < duration))
  have hcond : ∀ t ∈ (entries.map LrcEntry.time).filter
      (fun t => decide (0 < t) && decide (t < duration)), 0 < t ∧ t < duration := by
    intro t ht
    have := (List.mem_filter.mp ht).2
    simpa using this
  rw [decodeBoundaries, List.pairwise_cons]
  constructor
  · intro t ht
    rcases List.mem_append.mp ht with h1 | h1
    · exact (hcond t h1).1
    · rw [List.mem_singleton.mp h1]; exact hd
  · rw [List.pairwise_append]
    refine ⟨hfilt, by simp, ?_⟩
    intro a ha b hb
    rw [List.mem_singleton.mp hb]
    exact (hcond a ha).2

theorem getLast?_cons_append_singleton (x d : ℚ) (l : List ℚ) :
    (x :: (l ++ [d])).getLast? = some d := by
  induction l generalizing x with
  | nil => rfl
  | cons y rest ih =>
    rw [List.cons_append, List.getLast?_cons_cons]
    exact ih y

/-- A successful import with a loaded video installs exactly the segments built
from the boundary list and the freshly built text library. -/
theorem handleLrcImport_success (input : String) (duration : ℚ) (fid : Nat)
    (st : AppState) (hd : 0 < duration)
    (hne : (parseLRCFile input).entries.isEmpty = false)
    (hmax : (parseLRCFile input).maxTime ≤ duration) :
    handleLrcImport input duration fid st
      = (⟨buildSegments (parseLRCFile input).entries
            (mkTextBlocks fid ((parseLRCFile input).entries.filter
              (fun e => e.text != "")))
            (fid + (mkTextBlocks fid ((parseLRCFile input).entries.filter
              (fun e => e.text != ""))).length)
            (decodeBoundaries (parseLRCFile input).entries duration),
          mkTextBlocks fid ((parseLRCFile input).entries.filter
            (fun e => e.text != ""))⟩,
        .success (parseLRCFile input).entries.length
          (mkTextBlocks fid ((parseLRCFile input).entries.filter
            (fun e => e.text != ""))).length) := by
  simp only [handleLrcImport]
  rw [if_neg (by simp [hne]), if_neg (fun hc => absurd hc.2 (not_lt.mpr hmax)),
    if_pos hd]

/-- C2 (amended): in a decode with known positive duration whose import is
accepted, the installed segments are built over the boundary list
`0 :: interior entry times :: duration` with one segment per consecutive
boundary pair; the boundary list's members are exactly `{0, duration}` together
with the surviving entry times strictly between them; and provided the
surviving entry times are pairwise distinct, the boundary list is strictly
sorted (hence duplicate-free) and the built segments partition `[0, duration)`
with every segment satisfying `startTime < endTime`.  (Without the
distinctness proviso a duplicated entry time produces a duplicated boundary
and an empty segment — see the counterexample.) -/
theorem c2_decode_partition (input : String) (duration : ℚ) (fid : Nat)
    (st : AppState) (hd : 0 < duration)
    (hne : (parseLRCFile input).entries.isEmpty = false)
    (hmax : (parseLRCFile input).maxTime ≤ duration)
    (hdistinct : (parseLRCFile input).entries.Pairwise (fun a b => a.time ≠ b.time)) :
    ((handleLrcImport input duration fid st).1.segments
      = buildSegments (parseLRCFile input).entries
          (mkTextBlocks fid ((parseLRCFile input).entries.filter
            (fun e => e.text != "")))
          (fid + (mkTextBlocks fid ((parseLRCFile input).entries.filter
            (fun e => e.text != ""))).length)
          (decodeBoundaries (parseLRCFile input).entries duration)) ∧
    (∀ t : ℚ, t ∈ decodeBoundaries (parseLRCFile input).entries duration ↔
      (t = 0 ∨ t = duration ∨
        (0 < t ∧ t < duration ∧ ∃ e ∈ (parseLRCFile input).entries, e.time = t))) ∧
    (decodeBoundaries (parseLRCFile input).entries duration).Pairwise (· < ·) ∧
    (∀ (blocks : List TextBlock) (sid : Nat),
      (buildSegments (parseLRCFile input).entries blocks sid
        (decodeBoundaries (parseLRCFile input).entries duration)).map
        (fun s => (s.startTime, s.endTime))
      = (decodeBoundaries (parseLRCFile input).entries duration).zip
          (decodeBoundaries (parseLRCFile input).entries duration).tail) ∧
    (∀ (blocks : List TextBlock) (sid : Nat),
      boundaryChain 0 duration
        (buildSegments (parseLRCFile input).entries blocks sid
          (decodeBoundaries (parseLRCFile input).entries duration))) ∧
    (∀ (blocks : List TextBlock) (sid : Nat),
      ∀ s ∈ buildSegments (parseLRCFile input).entries blocks sid
          (decodeBoundaries (parseLRCFile input).entries duration),
        s.startTime < s.endTime) := by
  have hsorted : (parseLRCFile input).entries.Pairwise (fun a b => a.time ≤ b.time) :=
    sortEntries_sorted _
  have hpw := decodeBoundaries_pairwise hd hsorted hdistinct
  have hchain :
      ∀ (blocks : List TextBlock) (sid : Nat),
        boundaryChain 0 duration
          (buildSegments (parseLRCFile input).entries blocks sid
            (decodeBoundaries (parseLRCFile input).entries duration)) := by
    intro blocks sid
    refine boundaryChain_buildSegments _ _ _ _ _ _ hpw.chain' rfl ?_
    exact getLast?_cons_append_singleton _ _ _
  refine ⟨?_, mem_decodeBoundaries _ _, hpw,
    fun blocks sid => buildSegments_pairs _ blocks _ sid, hchain, ?_⟩
  · rw [handleLrcImport_success input duration fid st hd hne hmax]
  · intro blocks sid s hs
    exact ((boundaryChain_bounds (hchain blocks sid)) s hs).2.1

/-- Counterexample for C2 as stated: two entries sharing the time 5 with
different texts survive deduplication, so the boundary list keeps the
duplicate and the middle built segment is empty (`startTime = endTime`). -/
theorem c2_decode_partition_cex :
    decodeBoundaries (parseLRCFile "[00:05.00]A\n[00:05.00]B").entries 10
      = [0, 5, 5, 10] ∧
    ¬(∀ s ∈ (handleLrcImport "[00:05.00]A\n[00:05.00]B" 10 0 ⟨[], []⟩).1.segments,
        s.startTime < s.endTime) := by
  with_unfolding_all decide

/-- Witness for C2 on a one-entry import. -/
theorem c2_decode_partition_witness :
    boundaryChain 0 10
      (buildSegments (parseLRCFile "[00:05.00]A").entries [⟨0, "A"⟩] 1
        (decodeBoundaries (parseLRCFile "[00:05.00]A").entries 10)) :=
  (c2_decode_partition "[00:05.00]A" 10 0 ⟨[], []⟩ (by norm_num)
    (by with_unfolding_all decide) (by with_unfolding_all decide)
    (by with_unfolding_all decide)).2.2.2.2.1 [⟨0, "A"⟩] 1


/-! ## C3: the concrete decode example -/

/-- Counterexample for C3 as stated: the stripped text is computed once per
line, so both tags of `[00:05.00]Hi[00:08.50]` produce entries with text
`"Hi"` (the second is not `""`), and the segment starting at 8.5 is assigned
the `"Hi"` block rather than left unassigned. -/
theorem c3_decode_example_cex :
    (parseLRCFile "[00:05.00]Hi[00:08.50]").entries.map LrcEntry.text
      = ["Hi", "Hi"] ∧
    (parseLRCFile "[00:05.00]Hi[00:08.50]").entries.map LrcEntry.text
      ≠ ["Hi", ""] ∧
    (handleLrcImport "[00:05.00]Hi[00:08.50]" 10 0 ⟨[], []⟩).1.segments.map
      VideoSegment.textId = [none, some 0, some 0] := by
  with_unfolding_all decide

/-- C3 (amended): `[00:05.00]Hi[00:08.50]` decodes to the two entries
`{time 5, text "Hi"}` and `{time 8.5, text "Hi"}` (both tags share the line's
stripped text), giving two library blocks both reading `"Hi"`; with duration
10 the boundaries are 0, 5, 8.5, 10, producing three segments, and the
segments starting at 5 and at 8.5 both reference the first `"Hi"` block while
the segment starting at 0 is unassigned. -/
theorem c3_decode_example :
    parseLRCFile "[00:05.00]Hi[00:08.50]" = ⟨[⟨5, "Hi"⟩, ⟨17/2, "Hi"⟩], 17/2⟩ ∧
    handleLrcImport "[00:05.00]Hi[00:08.50]" 10 0 ⟨[], []⟩
      = (⟨[⟨2, 0, 5, none⟩, ⟨3, 5, 17/2, some 0⟩, ⟨4, 17/2, 10, some 0⟩],
          [⟨0, "Hi"⟩, ⟨1, "Hi"⟩]⟩, .success 2 2) := by
  with_unfolding_all decide

/-! ## C10: which library block a decoded segment references -/

theorem find?_first {α : Type} {p : α → Bool} :
    ∀ {l : List α} {b : α}, l.find? p = some b →
      ∃ k, ∃ hk : k < l.length, l.get ⟨k, hk⟩ = b ∧ p b = true ∧
        ∀ j (hj : j < k), p (l.get ⟨j, Nat.lt_trans hj hk⟩) = false := by
  intro l
  induction l with
  | nil => intro b h; simp [List.find?] at h
  | cons x xs ih =>
    intro b h
    cases hp : p x with
    | true =>
      rw [List.find?_cons_of_pos _ hp] at h
      injection h with h
      exact ⟨0, Nat.succ_pos _, h, h ▸ hp, fun j hj => absurd hj (Nat.not_lt_zero j)⟩
    | false =>
      rw [List.find?_cons_of_neg _ (by simp [hp])] at h
      obtain ⟨k, hk, hget, hpb, hbefore⟩ := ih h
      refine ⟨k + 1, Nat.succ_lt_succ hk, hget, hpb, ?_⟩
      intro j hj
      cases j with
      | zero => exact hp
      | succ j' => exact hbefore j' (Nat.lt_of_succ_lt_succ hj)

theorem find?_unique {α : Type} {p : α → Bool} {e : α} :
    ∀ {l : List α}, e ∈ l → p e = true → (∀ x ∈ l, p x = true → x = e) →
      l.find? p = some e := by
  intro l
  induction l with
  | nil => intro h; cases h
  | cons x xs ih =>
    intro hmem hpe huniq
    cases hp : p x with
    | true =>
      rw [List.find?_cons_of_pos _ hp]
      rw [huniq x (List.mem_cons_self x xs) hp]
    | false =>
      rw [List.find?_cons_of_neg _ (by simp [hp])]
      have hmem' : e ∈ xs := by
        rcases List.mem_cons.mp hmem with h1 | h1
        · rw [h1] at hpe; rw [hpe] at hp; cases hp
        · exact h1
      exact ih hmem' hpe (fun y hy hpy => huniq y (List.mem_cons_of_mem x hy) hpy)

theorem mkTextBlocks_length : ∀ (l : List LrcEntry) (fid : Nat),
    (mkTextBlocks fid l).length = l.length := by
  intro l
  induction l with
  | nil => intro fid; rfl
  | cons e rest ih => intro fid; simp [mkTextBlocks, ih (fid + 1)]

theorem mkTextBlocks_get :
    ∀ (l : List LrcEntry) (fid k : Nat) (hk : k < (mkTextBlocks fid l).length)
      (hk' : k < l.length),
      (mkTextBlocks fid l).get ⟨k, hk⟩ = ⟨fid + k, (l.get ⟨k, hk'⟩).text⟩ := by
  intro l
  induction l with
  | nil => intro fid k hk hk'; exact absurd hk' (Nat.not_lt_zero k)
  | cons e rest ih =>
    intro fid k hk hk'
    cases k with
    | zero => rfl
    | succ k' =>
      show (mkTextBlocks (fid + 1) rest).get ⟨k', _⟩ = _
      rw [ih (fid + 1) k' _ (Nat.lt_of_succ_lt_succ hk')]
      congr 1
      omega

theorem mkTextBlocks_mem_text :
    ∀ (l : List LrcEntry) (fid : Nat) (x : LrcEntry), x ∈ l →
      ∃ b ∈ mkTextBlocks fid l, b.text = x.text := by
  intro l
  induction l with
  | nil => intro fid x h; cases h
  | cons e rest ih =>
    intro fid x h
    rcases List.mem_cons.mp h with h1 | h1
    · exact ⟨⟨fid, e.text⟩, List.mem_cons_self _ _, by rw [h1]⟩
    · obtain ⟨b, hb, hbt⟩ := ih (fid + 1) x h1
      exact ⟨b, List.mem_cons_of_mem _ hb, hbt⟩

theorem buildSegments_textId (entries : List LrcEntry) (blocks : List TextBlock) :
    ∀ (ts : List ℚ) (sid : Nat) (s : VideoSegment),
      s ∈ buildSegments entries blocks sid ts →
      s.textId = segTextId entries blocks s.startTime := by
  intro ts
  induction ts with
  | nil => intro sid s h; cases h
  | cons a rest ih =>
    intro sid s h
    cases rest with
    | nil => cases h
    | cons b rest' =>
      rcases List.mem_cons.mp h with h1 | h1
      · rw [h1]
      · exact ih (sid + 1) s h1


/-- The `newTextBlocks` local of `handleLrcImport`. -/
def newTextBlocks (input : String) (fid : Nat) : List TextBlock :=
  mkTextBlocks fid ((parseLRCFile input).entries.filter (fun e => e.text != ""))

/-- The `newSegments` local of `handleLrcImport` (video loaded). -/
def newSegments (input : String) (duration : ℚ) (fid : Nat) : List VideoSegment :=
  buildSegments (parseLRCFile input).entries (newTextBlocks input fid)
    (fid + (newTextBlocks input fid).length)
    (decodeBoundaries (parseLRCFile input).entries duration)

theorem segTextId_first_block (entries : List LrcEntry) (fid : Nat) (t0 : ℚ)
    (bid : Nat)
    (h : segTextId entries
        (mkTextBlocks fid (entries.filter (fun e => e.text != ""))) t0 = some bid) :
    ∃ e ∈ entries, |e.time - t0| < 1 / 100 ∧ e.text ≠ "" ∧
      ∃ k, ∃ hk : k < (mkTextBlocks fid
          (entries.filter (fun e => e.text != ""))).length,
        ((mkTextBlocks fid (entries.filter (fun e => e.text != ""))).get
          ⟨k, hk⟩).id = bid ∧
        ((mkTextBlocks fid (entries.filter (fun e => e.text != ""))).get
          ⟨k, hk⟩).text = e.text ∧
        ∀ j (hj : j < k),
          ((mkTextBlocks fid (entries.filter (fun e => e.text != ""))).get
            ⟨j, Nat.lt_trans hj hk⟩).text ≠ e.text := by
  cases hf : entries.find? (fun e => decide (|e.time - t0| < 1 / 100)) with
  | none =>
    simp only [segTextId, hf] at h
    exact Option.noConfusion h
  | some e =>
    by_cases he : e.text = ""
    · simp only [segTextId, hf, if_pos he] at h
      exact Option.noConfusion h
    · simp only [segTextId, hf, if_neg he] at h
      cases hfb : (mkTextBlocks fid (entries.filter (fun e => e.text != ""))).find?
          (fun b => b.text == e.text) with
      | none => rw [hfb] at h; simp at h
      | some b =>
        rw [hfb] at h
        simp only [Option.map_some'] at h
        injection h with h
        obtain ⟨k, hk, hget, hpb, hbefore⟩ := find?_first hfb
        have htime : |e.time - t0| < 1 / 100 := by
          have := List.find?_some hf
          simpa using this
        refine ⟨e, List.mem_of_find?_eq_some hf, htime, he, k, hk, ?_, ?_, ?_⟩
        · rw [hget]; exact h
        · rw [hget]; simpa using hpb
        · intro j hj hcontra
          have hbef := hbefore j hj
          rw [hcontra] at hbef
          simp at hbef

theorem segTextId_at_entry_time (entries : List LrcEntry) (fid : Nat) (e : LrcEntry)
    (hsep : entries.Pairwise (fun a b => 1 / 100 ≤ |a.time - b.time|))
    (he : e ∈ entries) (het : e.text ≠ "") :
    ∃ k, ∃ hk : k < (mkTextBlocks fid
        (entries.filter (fun x => x.text != ""))).length,
      segTextId entries (mkTextBlocks fid (entries.filter (fun x => x.text != "")))
          e.time
        = some (((mkTextBlocks fid (entries.filter (fun x => x.text != ""))).get
            ⟨k, hk⟩).id) ∧
      ((mkTextBlocks fid (entries.filter (fun x => x.text != ""))).get
        ⟨k, hk⟩).text = e.text ∧
      ∀ j (hj : j < k),
        ((mkTextBlocks fid (entries.filter (fun x => x.text != ""))).get
          ⟨j, Nat.lt_trans hj hk⟩).text ≠ e.text := by
  have hsym : Symmetric (fun a b : LrcEntry => 1 / 100 ≤ |a.time - b.time|) := by
    intro a b hab
    rwa [abs_sub_comm]
  have hfind : entries.find? (fun x => decide (|x.time - e.time| < 1 / 100))
      = some e := by
    apply find?_unique he (by simp)
    intro x hx hpx
    by_contra hxe
    have hR := List.Pairwise.forall hsym hsep hx he hxe
    simp only [decide_eq_true_eq] at hpx
    rw [abs_sub_lt_iff] at hpx
    rw [le_abs] at hR
    rcases hR with hR | hR <;> linarith [hpx.1, hpx.2]
  have hef : e ∈ entries.filter (fun x => x.text != "") :=
    List.mem_filter.mpr ⟨he, by simpa using het⟩
  obtain ⟨b0, hb0, hb0t⟩ := mkTextBlocks_mem_text _ fid e hef
  have hsome : ((mkTextBlocks fid (entries.filter (fun x => x.text != ""))).find?
      (fun b => b.text == e.text)).isSome := by
    rw [List.find?_isSome]
    exact ⟨b0, hb0, by simpa using hb0t⟩
  obtain ⟨b, hfb⟩ := Option.isSome_iff_exists.mp hsome
  obtain ⟨k, hk, hget, hpb, hbefore⟩ := find?_first hfb
  refine ⟨k, hk, ?_, ?_, ?_⟩
  · simp only [segTextId, hfind, if_neg het, hfb, Option.map_some']
    rw [hget]
  · rw [hget]; simpa using hpb
  · intro j hj hcontra
    have hbef := hbefore j hj
    rw [hcontra] at hbef
    simp at hbef

/-- C10 (amended): after an accepted decode with a loaded video, the installed
state is (`newSegments`, `newTextBlocks`); every assigned segment references
the first library block whose text equals the text of its matched entry (the
first surviving entry within 0.01s of the segment's start); a library block
preceded by an equal-text block is referenced by no segment; and, provided the
surviving entry times are pairwise at least 0.01s apart, every segment
starting exactly at an entry time with nonempty text references the first
block carrying that entry's text.  (Without the separation proviso the matched
entry may be a different nearby entry — see the counterexample.) -/
theorem c10_first_matching_block (input : String) (duration : ℚ) (fid : Nat)
    (st : AppState) (hd : 0 < duration)
    (hne : (parseLRCFile input).entries.isEmpty = false)
    (hmax : (parseLRCFile input).maxTime ≤ duration) :
    ((handleLrcImport input duration fid st).1
      = ⟨newSegments input duration fid, newTextBlocks input fid⟩) ∧
    (∀ s ∈ newSegments input duration fid, ∀ bid : Nat, s.textId = some bid →
      ∃ e ∈ (parseLRCFile input).entries,
        |e.time - s.startTime| < 1 / 100 ∧ e.text ≠ "" ∧
        ∃ k, ∃ hk : k < (newTextBlocks input fid).length,
          ((newTextBlocks input fid).get ⟨k, hk⟩).id = bid ∧
          ((newTextBlocks input fid).get ⟨k, hk⟩).text = e.text ∧
          ∀ j (hj : j < k),
            ((newTextBlocks input fid).get ⟨j, Nat.lt_trans hj hk⟩).text
              ≠ e.text) ∧
    (∀ k, ∀ hk : k < (newTextBlocks input fid).length, ∀ j (hj : j < k),
      ((newTextBlocks input fid).get ⟨j, Nat.lt_trans hj hk⟩).text
          = ((newTextBlocks input fid).get ⟨k, hk⟩).text →
      ∀ s ∈ newSegments input duration fid,
        s.textId ≠ some (((newTextBlocks input fid).get ⟨k, hk⟩).id)) ∧
    ((parseLRCFile input).entries.Pairwise
        (fun a b => 1 / 100 ≤ |a.time - b.time|) →
      ∀ e ∈ (parseLRCFile input).entries, e.text ≠ "" →
      ∀ s ∈ newSegments input duration fid, s.startTime = e.time →
      ∃ k, ∃ hk : k < (newTextBlocks input fid).length,
        s.textId = some (((newTextBlocks input fid).get ⟨k, hk⟩).id) ∧
        ((newTextBlocks input fid).get ⟨k, hk⟩).text = e.text ∧
        ∀ j (hj : j < k),
          ((newTextBlocks input fid).get ⟨j, Nat.lt_trans hj hk⟩).text
            ≠ e.text) := by
  have hpart1 : ∀ s ∈ newSegments input duration fid, ∀ bid : Nat,
      s.textId = some bid →
      ∃ e ∈ (parseLRCFile input).entries,
        |e.time - s.startTime| < 1 / 100 ∧ e.text ≠ "" ∧
        ∃ k, ∃ hk : k < (newTextBlocks input fid).length,
          ((newTextBlocks input fid).get ⟨k, hk⟩).id = bid ∧
          ((newTextBlocks input fid).get ⟨k, hk⟩).text = e.text ∧
          ∀ j (hj : j < k),
            ((newTextBlocks input fid).get ⟨j, Nat.lt_trans hj hk⟩).text
              ≠ e.text := by
    intro s hs bid hbid
    have hs' : s ∈ buildSegments (parseLRCFile input).entries
        (newTextBlocks input fid) (fid + (newTextBlocks input fid).length)
        (decodeBoundaries (parseLRCFile input).entries duration) := hs
    have ht := buildSegments_textId (parseLRCFile input).entries
      (newTextBlocks input fid) _ _ s hs'
    rw [ht] at hbid
    exact segTextId_first_block (parseLRCFile input).entries fid s.startTime bid hbid
  refine ⟨?_, hpart1, ?_, ?_⟩
  · rw [handleLrcImport_success input duration fid st hd hne hmax]
    rfl
  · intro k hk j hj hdup s hs hbid
    obtain ⟨e, he, htime, hetext, k0, hk0, hid0, htext0, hbef0⟩ :=
      hpart1 s hs _ hbid
    have hk' : k < ((parseLRCFile input).entries.filter
        (fun e => e.text != "")).length := by
      rw [← mkTextBlocks_length ((parseLRCFile input).entries.filter
        (fun e => e.text != "")) fid]
      exact hk
    have hk0' : k0 < ((parseLRCFile input).entries.filter
        (fun e => e.text != "")).length := by
      rw [← mkTextBlocks_length ((parseLRCFile input).entries.filter
        (fun e => e.text != "")) fid]
      exact hk0
    have h1 : ((newTextBlocks input fid).get ⟨k, hk⟩).id = fid + k := by
      have hg := congrArg TextBlock.id (mkTextBlocks_get
        ((parseLRCFile input).entries.filter (fun e => e.text != "")) fid k hk hk')
      exact hg
    have h0 : ((newTextBlocks input fid).get ⟨k0, hk0⟩).id = fid + k0 := by
      have hg := congrArg TextBlock.id (mkTextBlocks_get
        ((parseLRCFile input).entries.filter (fun e => e.text != "")) fid k0 hk0 hk0')
      exact hg
    have hkk0 : k0 = k := by
      rw [h0, h1] at hid0
      omega
    subst hkk0
    exact hbef0 j hj (hdup.trans htext0)
  · intro hsep e he het s hs hst
    have hs' : s ∈ buildSegments (parseLRCFile input).entries
        (newTextBlocks input fid) (fid + (newTextBlocks input fid).length)
        (decodeBoundaries (parseLRCFile input).entries duration) := hs
    have ht := buildSegments_textId (parseLRCFile input).entries
      (newTextBlocks input fid) _ _ s hs'
    obtain ⟨k, hk, heq, htext, hbef⟩ :=
      segTextId_at_entry_time (parseLRCFile input).entries fid e hsep he het
    refine ⟨k, hk, ?_, htext, hbef⟩
    rw [ht, hst]
    exact heq

set_option maxRecDepth 8000 in
/-- Counterexample for C10 as stated: entries (5, "Y"), (5.005, "X"), (7, "X")
share the text "X" at the two different times 5.005 and 7, yet the segment
starting at 5.005 references the "Y" block (id 0) — its matched entry is the
entry at 5.0, which lies within the 0.01 tolerance — not the first "X"
entry's block (id 1). -/
theorem c10_first_matching_block_cex :
    (parseLRCFile "[00:05.00]Y\n[00:05.005]X\n[00:07.00]X").entries
      = [⟨5, "Y"⟩, ⟨1001/200, "X"⟩, ⟨7, "X"⟩] ∧
    (handleLrcImport "[00:05.00]Y\n[00:05.005]X\n[00:07.00]X" 10 0
        ⟨[], []⟩).1.textBlocks
      = [⟨0, "Y"⟩, ⟨1, "X"⟩, ⟨2, "X"⟩] ∧
    (handleLrcImport "[00:05.00]Y\n[00:05.005]X\n[00:07.00]X" 10 0
        ⟨[], []⟩).1.segments.map (fun s => (s.startTime, s.textId))
      = [(0, none), (5, some 0), (1001/200, some 0), (7, some 1)] := by
  with_unfolding_all decide

set_option maxRecDepth 8000 in
/-- Witness for C10 on a two-entry import with well-separated times. -/
theorem c10_first_matching_block_witness :
    (handleLrcImport "[00:05.00]A\n[00:07.00]B" 10 0 ⟨[], []⟩).1
      = ⟨newSegments "[00:05.00]A\n[00:07.00]B" 10 0,
         newTextBlocks "[00:05.00]A\n[00:07.00]B" 0⟩ :=
  (c10_first_matching_block "[00:05.00]A\n[00:07.00]B" 10 0 ⟨[], []⟩ (by norm_num)
    (by with_unfolding_all decide) (by with_unfolding_all decide)).1

end LrcScripter
